import Mathlib

/-!
Verification of the atomic-environment management layer of
`theforce/descriptor/atoms.py`: the per-atom pairwise view (`Local`),
its change-detection snapshot (`AtomsChanges`), the greedy load
balancer (`Distributer`), and the orchestrating container
(`TorchAtoms`) around neighbor-list updates and descriptor
registration.

Modelling conventions:
- torch/numpy float tensors are modelled as lists of exact rationals;
  the tolerance formulas of `np.allclose` are kept verbatim
  (`rtol = 1e-5`, `atol = 1e-8`).
- elementwise tensor operations become `List.zipWith`; boolean-mask
  indexing (`t[mask]`) becomes `maskFilter`.
- the Python dict `Distributer.loads` becomes an association list in
  insertion order; `sorted(keys)[0]` on tuples becomes a lexicographic
  minimum fold.
- in-place mutation becomes explicit state passing; a `raise` becomes
  `Except.error`.
-/

/-- A 3-vector of rationals (positions, displacements). -/
abbrev Q3 := ℚ × ℚ × ℚ

/-- A 3-vector of integers (periodic image offsets). -/
abbrev I3 := Int × Int × Int

/-- Zero offset vector. -/
def z3 : I3 := (0, 0, 0)

/-- Zero position vector. -/
def q0 : Q3 := (0, 0, 0)

/-- `lex3` from `atoms.py`: the lexicographic tie-break flag on a
periodic offset vector.  Mirrors the source comparisons `x[k] > -x[k]`
verbatim, including the final `return True` on the all-zero vector. -/
def lex3 (x : I3) : Bool :=
  if x.1 ≠ 0 then decide (x.1 > -x.1)
  else if x.2.1 ≠ 0 then decide (x.2.1 > -x.2.1)
  else if x.2.2 ≠ 0 then decide (x.2.2 > -x.2.2)
  else true

/-- The `Local` class (pairwise view): raw candidate arrays `_i`, `_j`,
`_a`, `_b`, `_r`, the optional periodic offsets `off`, and the mutable
boolean selection mask `_m`.  The scalar `number` mirrors
`self.number` (the owner species); the lazy distance caches `_d` and
`_argsort` are not needed by any claim and are omitted. -/
structure Local where
  number : Int
  _i : List Int
  _j : List Int
  _a : List Int
  _b : List Int
  _r : List Q3
  off : Option (List I3)
  _m : List Bool
deriving DecidableEq

/-- Boolean-mask indexing `t[m]` over a common length. -/
def maskFilter {α : Type} (m : List Bool) (xs : List α) : List α :=
  ((m.zip xs).filter (fun p => p.1)).map (fun p => p.2)

/-- Property `Local.b`: `self._b[self._m]`. -/
def Local.b (loc : Local) : List Int := maskFilter loc._m loc._b

/-- Property `Local.r`: `self._r[self._m]`. -/
def Local.r (loc : Local) : List Q3 := maskFilter loc._m loc._r

/-- Property `Local._lex`: all-true when `off is None`, else `lex3`
mapped over the offset rows. -/
def Local.lexArr (loc : Local) : List Bool :=
  match loc.off with
  | none => List.replicate loc._i.length true
  | some os => os.map lex3

/-- `Local.__init__` with an array first argument (as called from
`detach` and `as_local`): `_i` is `np.full_like(j, i)` which copies
the same-shape array `i`, `_a` is `np.full_like(b, a)` for the scalar
species `a`, and the mask starts all-true (`ones_like(self._i)`).
The source also stores the first argument as `self.index`; no
modelled operation reads it, so it is not kept. -/
def Local.initArr (iA jA : List Int) (a : Int) (bA : List Int) (rA : List Q3)
    (off : Option (List I3)) : Local :=
  { number := a, _i := iA, _j := jA, _a := List.replicate bA.length a,
    _b := bA, _r := rA, off := off, _m := List.replicate iA.length true }

/-- `Local.__init__` with a scalar first argument (as called from
`TorchAtoms.local`): `_i = np.full_like(j, i)`. -/
def Local.init (i : Int) (jA : List Int) (a : Int) (bA : List Int) (rA : List Q3)
    (off : Option (List I3)) : Local :=
  Local.initArr (List.replicate jA.length i) jA a bA rA off

/-- `Local.select(a, b, bothways)`: the returned mask.  The `in_place`
installation of the mask is modelled by `Local.applyOp`. -/
def Local.select (loc : Local) (a b : Int) (bothways : Bool) : List Bool :=
  let m := List.zipWith (fun x y => decide (x = a) && decide (y = b)) loc._a loc._b
  if a = b then
    if bothways then m
    else
      List.zipWith (· && ·) m
        (List.zipWith (fun ij l => decide (ij.2 > ij.1) || (decide (ij.2 = ij.1) && l))
          (loc._i.zip loc._j) loc.lexArr)
  else
    if bothways then
      List.zipWith (· || ·) m
        (List.zipWith (fun x y => decide (x = b) && decide (y = a)) loc._a loc._b)
    else m

/-- One in-place mask mutation: `select(..., in_place=True)` or
`unselect()` (which resets `_m` to `ones_like(self._i)`). -/
inductive MaskOp where
  | sel (a b : Int) (bothways : Bool)
  | unsel
deriving DecidableEq

/-- Apply one mask mutation to a view. -/
def Local.applyOp (loc : Local) : MaskOp → Local
  | MaskOp.sel a b bw => { loc with _m := loc.select a b bw }
  | MaskOp.unsel => { loc with _m := List.replicate loc._i.length true }

/-- Apply a sequence of mask mutations. -/
def Local.applyOps (loc : Local) (ops : List MaskOp) : Local :=
  ops.foldl Local.applyOp loc

/-- `Local.detach(keepids)`: copies the raw (unmasked) arrays `_b` and
`_r`; with `keepids` the raw `_i`/`_j`, otherwise `i = zeros(n)` and
`j = arange(1, n + 1)` where `n = r.shape[0]`; no offsets are passed. -/
def Local.detach (loc : Local) (keepids : Bool) : Local :=
  if keepids then Local.initArr loc._i loc._j loc.number loc._b loc._r none
  else
    Local.initArr (List.replicate loc._r.length 0)
      ((List.range loc._r.length).map (fun k => (k : Int) + 1))
      loc.number loc._b loc._r none

/-- `Local.__eq__` between two views: elementwise equality of the raw
arrays `_i`, `_j`, `_a`, `_b`, `_r` and of the tie-break flags `_lex`;
the mask `_m` is not consulted.  (The source first returns `False`
when the other object is a `TorchAtoms`; comparison across types is
outside the modelled claims.) -/
def Local.beq (x y : Local) : Bool :=
  decide (x._i = y._i) && decide (x._j = y._j) && decide (x._a = y._a) &&
  decide (x._b = y._b) && decide (x._r = y._r) && decide (x.lexArr = y.lexArr)

/-- The slice of an ASE `Atoms` object needed by `Local.as_atoms` and
`TorchAtoms.as_local`: atomic numbers and positions. -/
structure AtomsM where
  numbers : List Int
  positions : List Q3
deriving DecidableEq

/-- Insert into a sorted duplicate-free list of integers. -/
def insSorted (x : Int) : List Int → List Int
  | [] => [x]
  | y :: ys => if x < y then x :: y :: ys else if x = y then y :: ys else y :: insSorted x ys

/-- `torch.unique`: the sorted distinct values of a list. -/
def sortedUnique (xs : List Int) : List Int := xs.foldr insSorted []

/-- `Local.as_atoms`: one atom at the origin per distinct value of
`_a` (via `self._a.unique()`), followed by the neighbors `_b` at the
raw displacements `_r`. -/
def Local.as_atoms (loc : Local) : AtomsM :=
  let u := sortedUnique loc._a
  { numbers := u ++ loc._b,
    positions := List.replicate u.length q0 ++ loc._r }

/-- `TorchAtoms.as_local`: `r = positions[1:]`,
`a, b = numbers[0], numbers[1:]`, and
`i, j = broadcast_arrays(arange(natoms)[0], arange(natoms)[1:])`,
i.e. `i = zeros(natoms - 1)` and `j = arange(1, natoms)`.
The source raises an IndexError on an empty configuration; the model
totalises `numbers[0]` with a default, and every theorem using this
definition assumes at least one atom. -/
def AtomsM.as_local (s : AtomsM) : Local :=
  Local.initArr (List.replicate (s.numbers.length - 1) 0)
    ((List.range (s.numbers.length - 1)).map (fun k => (k : Int) + 1))
    (s.numbers.headD 0) (s.numbers.drop 1) (s.positions.drop 1) none

/-- Modelled from the spec: the literal tie-break predicate of claim
C1, "comparing offset components in order x,y,z, the first non-zero
component is positive" — on the all-zero vector no non-zero component
exists, so the predicate is false there.  This is the refinement
counterpart to be compared with `lex3` from the source. -/
def firstNonzeroPos (x : I3) : Bool :=
  if x.1 ≠ 0 then decide (x.1 > 0)
  else if x.2.1 ≠ 0 then decide (x.2.1 > 0)
  else if x.2.2 ≠ 0 then decide (x.2.2 > 0)
  else false

/-- The per-candidate keep condition claimed by C1 for
`select(a, a, bothways=False)` at candidate `k`, read literally from
the claim's words. -/
def specKeepC1 (loc : Local) (a : Int) (k : Nat) : Prop :=
  loc._a.getD k 0 = a ∧ loc._b.getD k 0 = a ∧
  (loc._j.getD k 0 > loc._i.getD k 0 ∨
    (loc._j.getD k 0 = loc._i.getD k 0 ∧
      firstNonzeroPos ((loc.off.getD []).getD k z3) = true))

instance (loc : Local) (a : Int) (k : Nat) : Decidable (specKeepC1 loc a k) := by
  unfold specKeepC1; infer_instance

/-- The amended per-candidate keep condition for
`select(a, a, bothways=False)`: as `specKeepC1`, but the tie-break
also passes when the offset vector is entirely zero. -/
def amendedKeepC1 (loc : Local) (a : Int) (k : Nat) : Prop :=
  loc._a.getD k 0 = a ∧ loc._b.getD k 0 = a ∧
  (loc._j.getD k 0 > loc._i.getD k 0 ∨
    (loc._j.getD k 0 = loc._i.getD k 0 ∧
      (firstNonzeroPos ((loc.off.getD []).getD k z3) = true ∨
        (loc.off.getD []).getD k z3 = z3)))

/-- The mutable geometric state of a configuration: atomic numbers,
positions, cell rows, periodic boundary flags. -/
structure AtomsState where
  numbers : List Int
  positions : List Q3
  cell : List Q3
  pbc : List Bool
deriving DecidableEq

/-- A feature generator (descriptor) as seen by this layer: a name
(uniqueness is checked at registration) and an opaque state token. -/
structure Desc where
  name : String
  state : Int
deriving DecidableEq

/-- The data copied by `AtomsChanges.update_references`: atom count,
species, positions, cell, boundary flags, and one state token per
registered descriptor. -/
structure Snapshot where
  natoms : Nat
  numbers : List Int
  positions : List Q3
  cell : List Q3
  pbc : List Bool
  descStates : List Int
deriving DecidableEq

/-- Take a snapshot of a live state and descriptor set
(`AtomsChanges.update_references`). -/
def snapOf (s : AtomsState) (ds : List Desc) : Snapshot :=
  { natoms := s.numbers.length, numbers := s.numbers, positions := s.positions,
    cell := s.cell, pbc := s.pbc, descStates := ds.map (fun d => d.state) }

/-- `np.allclose` default absolute tolerance `1e-8`, as an exact rational. -/
def atolQ : ℚ := 1 / 100000000

/-- `np.allclose` default relative tolerance `1e-5`, as an exact rational. -/
def rtolQ : ℚ := 1 / 100000

/-- One-component `np.allclose` test: `|a - b| <= atol + rtol * |b|`. -/
def close1 (a b : ℚ) : Bool := decide (|a - b| ≤ atolQ + rtolQ * |b|)

/-- Componentwise closeness of two 3-vectors. -/
def close3 (a b : Q3) : Bool := close1 a.1 b.1 && close1 a.2.1 b.2.1 && close1 a.2.2 b.2.2

/-- `np.allclose` over two arrays of 3-vectors.  Arrays of different
length are reported as not close (numpy would fail to broadcast). -/
def allclose (xs ys : List Q3) : Bool :=
  decide (xs.length = ys.length) && (List.zipWith close3 xs ys).all (fun t => t)

/-- `AtomsChanges.natoms`: live atom count differs from the snapshot. -/
def changedNatoms (sn : Snapshot) (live : AtomsState) : Bool :=
  decide (live.numbers.length ≠ sn.natoms)

/-- `AtomsChanges.atomic_numbers`: `(ref.numbers != snapshot).any()`. -/
def changedAtomicNumbers (sn : Snapshot) (live : AtomsState) : Bool :=
  decide (live.numbers ≠ sn.numbers)

/-- `AtomsChanges.numbers`: count change or species change. -/
def changedNumbers (sn : Snapshot) (live : AtomsState) : Bool :=
  changedNatoms sn live || changedAtomicNumbers sn live

/-- `AtomsChanges.positions`: `not np.allclose(live, snapshot)`. -/
def changedPositions (sn : Snapshot) (live : AtomsState) : Bool :=
  ! allclose live.positions sn.positions

/-- `AtomsChanges.cell`: `not np.allclose(live, snapshot)`. -/
def changedCell (sn : Snapshot) (live : AtomsState) : Bool :=
  ! allclose live.cell sn.cell

/-- `AtomsChanges.pbc`: `(ref.pbc != snapshot).any()`. -/
def changedPbc (sn : Snapshot) (live : AtomsState) : Bool :=
  decide (live.pbc ≠ sn.pbc)

/-- `AtomsChanges.atoms` (any geometry change):
`any([numbers, positions, cell, pbc])`. -/
def changedAtoms (sn : Snapshot) (live : AtomsState) : Bool :=
  changedNumbers sn live || changedPositions sn live ||
    changedCell sn live || changedPbc sn live

/-- `AtomsChanges.descriptors`: per-generator token comparison. -/
def changedDescriptors (sn : Snapshot) (ds : List Desc) : List Bool :=
  List.zipWith (fun c r => decide (c ≠ r.state)) sn.descStates ds

/-- The slice of `TorchAtoms` state driving `update`: live geometry,
cutoff, registered descriptors, the neighbor-list object (opaque
token), the held views, and the last accepted snapshot. -/
structure TA where
  state : AtomsState
  cutoff : Option ℚ
  descriptors : List Desc
  nl : Nat
  loc : Option (List Local)
  snap : Snapshot

/-- `TorchAtoms.update(cutoff, descriptors, forced, ...)`.  The two
external rebuild actions — `build_nl` (neighbor-search collaborator)
and the refresh block (`nl.update`, view rebuild, re-snapshot) — are
injected as function arguments, since they call the out-of-scope
neighbor search.  Python truthiness of the arguments is modelled:
`descriptors=[]` is falsy. -/
def TA.update (buildNLf : TA → ℚ → TA) (refreshf : TA → TA) (ta : TA)
    (cutoff : Option ℚ) (descriptors : Option (List Desc)) (forced : Bool) : TA :=
  let p1 : TA × Bool :=
    if cutoff.isSome || changedNumbers ta.snap ta.state then
      (buildNLf ta (cutoff.getD (ta.cutoff.getD 0)), true)
    else (ta, forced)
  let p2 : TA × Bool :=
    match descriptors with
    | some ds => if ds.isEmpty then p1 else ({ p1.1 with descriptors := ds }, true)
    | none => p1
  if p2.2 || changedAtoms p2.1.snap p2.1.state then refreshf p2.1 else p2.1

/-- `TorchAtoms.set_descriptors`: replaces the active descriptor set
with no name check; never raises.  (Re-staging of the held views is a
side effect on the views, outside the modelled claims.) -/
def TA.set_descriptors (ta : TA) (ds : List Desc) : Except String TA :=
  Except.ok { ta with descriptors := ds }

/-- `TorchAtoms.add_descriptors`: appends to the active set, then
raises iff the resulting name list has a duplicate
(`len(set(names)) != len(self.descriptors)`).  The source mutates
`self.descriptors` before raising; the error branch here carries only
the raise, which is all the claims consult. -/
def TA.add_descriptors (ta : TA) (ds : List Desc) : Except String TA :=
  if (((ta.descriptors ++ ds).map (fun d => d.name)).dedup.length ≠
      (ta.descriptors ++ ds).length) then
    Except.error "two or more descriptors have the same names"
  else Except.ok { ta with descriptors := ta.descriptors ++ ds }

/-- The slice of a configuration consulted by the load balancer:
its atomic numbers and its optional explicit per-atom rank list. -/
structure Conf where
  numbers : List Int
  ranks : Option (List Nat)
deriving DecidableEq

/-- `Distributer` state: worker count, the per-species per-rank count
table (a dict in insertion order), and the per-rank total counts.
The stored `ranks = list(range(world_size))` is recovered as
`List.range world_size` where needed. -/
structure Distributer where
  world_size : Nat
  loads : List (Int × List Int)
  total : List Int
deriving DecidableEq

/-- A fresh balancer: empty dict, all-zero totals. -/
def Distributer.fresh (w : Nat) : Distributer :=
  { world_size := w, loads := [], total := List.replicate w 0 }

/-- Dict lookup in `Distributer.loads`. -/
def findLoad : List (Int × List Int) → Int → Option (List Int)
  | [], _ => none
  | p :: rest, z => if p.1 = z then some p.2 else findLoad rest z

/-- Increment entry `r` of an integer list (`v[r] += 1`). -/
def incAt : List Int → Nat → List Int
  | [], _ => []
  | x :: xs, 0 => (x + 1) :: xs
  | x :: xs, r + 1 => x :: incAt xs r

/-- Replace the entry of species `z` by its copy with rank `r`
incremented (`self.loads[z][rank] += 1`). -/
def setLoad : List (Int × List Int) → Int → Nat → List (Int × List Int)
  | [], _, _ => []
  | p :: rest, z, r =>
    if p.1 = z then (p.1, incAt p.2 r) :: rest else p :: setLoad rest z r

/-- `z not in self.loads`: lazily create an all-zero row. -/
def Distributer.ensure (d : Distributer) (z : Int) : Distributer :=
  match findLoad d.loads z with
  | some _ => d
  | none => { d with loads := d.loads ++ [(z, List.replicate d.world_size 0)] }

/-- Strict lexicographic comparison of the sort keys
`(total[r], loads[z][r], r)`, as Python tuple `<`. -/
def keyLt (k1 k2 : Int × Int × Nat) : Bool :=
  decide (k1.1 < k2.1) ||
    (decide (k1.1 = k2.1) &&
      (decide (k1.2.1 < k2.2.1) ||
        (decide (k1.2.1 = k2.2.1) && decide (k1.2.2 < k2.2.2))))

/-- Fold computing the minimum key, seeded with a first key. -/
def minKeyAux (best : Int × Int × Nat) : List (Int × Int × Nat) → Int × Int × Nat
  | [] => best
  | k :: ks => minKeyAux (if keyLt k best then k else best) ks

/-- `sorted(keys)[0]`: the lexicographic minimum of a key list.  The
source raises an IndexError on an empty list (only reachable with
zero workers); the model returns a junk key there. -/
def pickKey : List (Int × Int × Nat) → Int × Int × Nat
  | [] => (0, 0, 0)
  | k :: ks => minKeyAux k ks

/-- `list(zip(self.total, self.loads[z], self.ranks))`. -/
def keysOf (total loadz : List Int) (ranks : List Nat) : List (Int × Int × Nat) :=
  List.zipWith (fun tl r => (tl.1, tl.2, r)) (total.zip loadz) ranks

/-- `self.loads[z]` (empty when the species is absent; every use sits
behind `ensure`, which guarantees presence). -/
def Distributer.loadRow (d : Distributer) (z : Int) : List Int :=
  (findLoad d.loads z).getD []

/-- The sort key `(self.total[r], self.loads[z][r], r)` of rank `r`. -/
def Distributer.sortKey (d : Distributer) (z : Int) (r : Nat) : Int × Int × Nat :=
  (d.total.getD r 0, (d.loadRow z).getD r 0, r)

/-- One iteration of the `Distributer.__call__` loop body: ensure the
species row exists, pick the rank with the minimal
`(total, loads[z], rank)` key, then increment both counters. -/
def Distributer.assignAtom (d : Distributer) (z : Int) : Distributer × Nat :=
  let d1 := d.ensure z
  let r := (pickKey (keysOf d1.total (d1.loadRow z) (List.range d1.world_size))).2.2
  ({ d1 with loads := setLoad d1.loads z r, total := incAt d1.total r }, r)

/-- The `Distributer.__call__` loop over `atoms.numbers`, returning
the final state and the accumulated rank list. -/
def Distributer.assignList (d : Distributer) : List Int → Distributer × List Nat
  | [] => (d, [])
  | z :: zs =>
    let p := d.assignAtom z
    let q := Distributer.assignList p.1 zs
    (q.1, p.2 :: q.2)

/-- `Distributer.__call__(atoms)`: a no-op when the configuration
already has an explicit rank assignment, otherwise assigns every atom
in order and installs the rank list. -/
def Distributer.call (d : Distributer) (c : Conf) : Distributer × Conf :=
  match c.ranks with
  | some _ => (d, c)
  | none =>
    let p := d.assignList c.numbers
    (p.1, { c with ranks := some p.2 })

/-- A sequence of `__call__` invocations (states threaded). -/
def Distributer.callSeq (d : Distributer) : List Conf → Distributer
  | [] => d
  | c :: cs => Distributer.callSeq (d.call c).1 cs

/-- The balancer state after the first `k` atoms of one call. -/
def Distributer.stepState (d : Distributer) (zs : List Int) (k : Nat) : Distributer :=
  (d.assignList (zs.take k)).1

/-- Well-formedness of a balancer: a positive worker count (the spec
makes a zero-worker partition request a fatal caller error), totals of
length `world_size`, and every dict row of length `world_size`. -/
def DWF (d : Distributer) : Prop :=
  0 < d.world_size ∧ d.total.length = d.world_size ∧
    ∀ p ∈ d.loads, p.2.length = d.world_size

instance (d : Distributer) : Decidable (DWF d) := by
  unfold DWF; infer_instance

/-- Lexicographic order on sort keys, as a proposition. -/
def KeyLe (k1 k2 : Int × Int × Nat) : Prop :=
  k1.1 < k2.1 ∨ (k1.1 = k2.1 ∧
    (k1.2.1 < k2.2.1 ∨ (k1.2.1 = k2.2.1 ∧ k1.2.2 ≤ k2.2.2)))

/-- Per-rank spread of at most one, in index form. -/
def spread01 (v : List Int) : Prop :=
  ∀ a b : Nat, a < v.length → b < v.length → v.getD a 0 ≤ v.getD b 0 + 1

/-- Reachable-state invariant of a fresh balancer fed a single species
`z`: totals of length `W`, the dict either still empty (with all-zero
totals) or exactly the one row `z ↦ total`, totals summing to the
number of atoms assigned, and spread at most one. -/
def SInv (W : Nat) (z : Int) (n : Int) (d : Distributer) : Prop :=
  d.world_size = W ∧ d.total.length = W ∧
    ((d.loads = [] ∧ d.total = List.replicate W 0) ∨ d.loads = [(z, d.total)]) ∧
    d.total.sum = n ∧ spread01 d.total

/-- Concrete view for claim C1: a single same-species self-image
candidate (`j = i`) whose periodic offset is the zero vector. -/
def locSelfZero : Local :=
  { number := 1, _i := [0], _j := [0], _a := [1], _b := [1],
    _r := [q0], off := some [z3], _m := [true] }

/-- Concrete view for claim C2: owner species 1 with neighbors of
species 1 and 2, so that `select(1, 1, bothways=False)` installs a
proper mask `[true, false]`. -/
def locTwoCand : Local :=
  { number := 1, _i := [0, 0], _j := [1, 2], _a := [1, 1], _b := [1, 2],
    _r := [((1 : ℚ), (0 : ℚ), (0 : ℚ)), ((2 : ℚ), (0 : ℚ), (0 : ℚ))],
    off := none, _m := [true, true] }

/-- Concrete view for the C1/C9 witnesses: one ordinary pair
(`j > i`), one self-image pair with positive offset, one self-image
pair with zero offset, one negative-offset pair, one species-2 pair. -/
def locWitness : Local :=
  { number := 1, _i := [0, 0, 0, 0, 0], _j := [2, 0, 0, 0, 1],
    _a := [1, 1, 1, 1, 1], _b := [1, 1, 1, 1, 2],
    _r := [q0, q0, q0, q0, q0],
    off := some [z3, (1, 0, 0), z3, (-1, 0, 0), (1, 0, 0)],
    _m := [true, true, true, true, true] }

/-- Concrete geometric state for the C6/C7 witnesses. -/
def stateA : AtomsState :=
  { numbers := [10, 18], positions := [q0, ((1 : ℚ), (0 : ℚ), (0 : ℚ))],
    cell := [((5 : ℚ), 0, 0), ((0 : ℚ), 5, 0), ((0 : ℚ), 0, 5)],
    pbc := [true, true, true] }

/-- `stateA` with one species entry changed. -/
def stateB : AtomsState := { stateA with numbers := [10, 17] }

/-- Concrete orchestrator state whose snapshot matches its live state. -/
def taA : TA :=
  { state := stateA, cutoff := some 3, descriptors := [{ name := "D_0", state := 7 }],
    nl := 0, loc := some [], snap := snapOf stateA [{ name := "D_0", state := 7 }] }

/-- Concrete configurations for the load-balancer witnesses. -/
def confFree : Conf := { numbers := [1, 1, 1], ranks := none }

/-- A configuration that already has an explicit rank assignment. -/
def confFixed : Conf := { numbers := [1, 2], ranks := some [1, 0] }

/-! ## Helper lemmas about the pairwise view -/

/-- `lex3` holds exactly when the first non-zero offset component is
positive, or the offset is entirely zero. -/
theorem lex3_char (x : I3) :
    lex3 x = true ↔ (firstNonzeroPos x = true ∨ x = z3) := by
  obtain ⟨x1, x2, x3⟩ := x
  by_cases h1 : x1 = 0 <;> by_cases h2 : x2 = 0 <;> by_cases h3 : x3 = 0 <;>
    simp [lex3, firstNonzeroPos, z3, h1, h2, h3, Prod.ext_iff]

/-- `Local.beq` is reflexive. -/
theorem beq_refl_local (x : Local) : Local.beq x x = true := by
  simp [Local.beq]

/-- Pointwise value of the mask returned by
`select(a, a, bothways=False)` when offsets are present. -/
theorem select_same_getD (loc : Local) (a : Int) (os : List I3)
    (hoff : loc.off = some os)
    (hj : loc._j.length = loc._i.length)
    (ha : loc._a.length = loc._i.length)
    (hb : loc._b.length = loc._i.length)
    (hos : os.length = loc._i.length)
    (k : Nat) (hk : k < loc._i.length) :
    (loc.select a a false).getD k false =
      ((decide (loc._a.getD k 0 = a) && decide (loc._b.getD k 0 = a)) &&
        (decide (loc._j.getD k 0 > loc._i.getD k 0) ||
          (decide (loc._j.getD k 0 = loc._i.getD k 0) && lex3 (os.getD k z3)))) := by
  have hsel : loc.select a a false =
      List.zipWith (· && ·)
        (List.zipWith (fun x y => decide (x = a) && decide (y = a)) loc._a loc._b)
        (List.zipWith (fun ij l => decide (ij.2 > ij.1) || (decide (ij.2 = ij.1) && l))
          (loc._i.zip loc._j) (os.map lex3)) := by
    simp [Local.select, Local.lexArr, hoff]
  have hlen : (loc.select a a false).length = loc._i.length := by
    rw [hsel]
    simp only [List.length_zipWith, List.length_zip, List.length_map, hj, ha, hb, hos]
    omega
  have hk' : k < (loc.select a a false).length := by rw [hlen]; exact hk
  rw [List.getD_eq_getElem _ _ hk']
  have hkm : k < (List.zipWith (fun x y => decide (x = a) && decide (y = a))
      loc._a loc._b).length := by
    simp only [List.length_zipWith, ha, hb]; omega
  have hkd : k < (List.zipWith
      (fun ij l => decide (ij.2 > ij.1) || (decide (ij.2 = ij.1) && l))
      (loc._i.zip loc._j) (os.map lex3)).length := by
    simp only [List.length_zipWith, List.length_zip, List.length_map, hj, hos]; omega
  have hka : k < loc._a.length := by omega
  have hkb : k < loc._b.length := by omega
  have hkj : k < loc._j.length := by omega
  have hkos : k < os.length := by omega
  have hkz : k < (loc._i.zip loc._j).length := by
    simp only [List.length_zip, hj]; omega
  have hkmap : k < (os.map lex3).length := by
    simp only [List.length_map]; omega
  simp only [hsel, List.getElem_zipWith, List.getElem_zip, List.getElem_map]
  rw [List.getD_eq_getElem loc._a 0 hka, List.getD_eq_getElem loc._b 0 hkb,
    List.getD_eq_getElem loc._j 0 hkj, List.getD_eq_getElem loc._i 0 hk,
    List.getD_eq_getElem os z3 hkos]

/-! ## Claim C1 -/

/-- Claim C1 as stated is false on the code: on a same-species
self-image candidate whose offset vector is entirely zero,
`select(a, a, bothways=False)` keeps the pair although no offset
component is non-zero, so the claim's tie-break ("the first non-zero
component is positive") does not hold. -/
theorem C1_counterexample :
    ¬ (((locSelfZero.select 1 1 false).getD 0 false = true) ↔
        specKeepC1 locSelfZero 1 0) := by
  decide

/-- Claim C1, amended: for every pairwise view carrying offsets, the
mask returned by `select(a, a, bothways=False)` is true for candidate
`k` exactly when both species equal `a` and either `j > i`, or
`j = i` and the offset's first non-zero component is positive or the
offset vector is entirely zero. -/
theorem C1_select_same_species_amended (loc : Local) (a : Int) (os : List I3)
    (hoff : loc.off = some os)
    (hj : loc._j.length = loc._i.length)
    (ha : loc._a.length = loc._i.length)
    (hb : loc._b.length = loc._i.length)
    (hos : os.length = loc._i.length)
    (k : Nat) (hk : k < loc._i.length) :
    ((loc.select a a false).getD k false = true ↔ amendedKeepC1 loc a k) := by
  rw [select_same_getD loc a os hoff hj ha hb hos k hk]
  unfold amendedKeepC1
  rw [hoff]
  simp only [Option.getD_some, Bool.and_eq_true, Bool.or_eq_true, decide_eq_true_iff,
    lex3_char, gt_iff_lt]
  tauto

/-- Witness for the amended C1 on a concrete five-candidate view. -/
theorem C1_select_same_species_amended_witness :
    ((locWitness.select 1 1 false).getD 3 false = true ↔ amendedKeepC1 locWitness 1 3) :=
  C1_select_same_species_amended locWitness 1
    [z3, (1, 0, 0), z3, (-1, 0, 0), (1, 0, 0)] rfl rfl rfl rfl rfl 3 (by decide)

/-! ## Claim C9 -/

/-- Claim C9: a same-species self-pair (`j = i`) with an entirely
zero offset vector is kept by `select(a, a, bothways=False)`: the
tie-break `lex3` evaluates to true on the zero vector, so the mask is
true at that candidate. -/
theorem C9_zero_offset_pair_kept (loc : Local) (a : Int) (os : List I3)
    (hoff : loc.off = some os)
    (hj : loc._j.length = loc._i.length)
    (ha : loc._a.length = loc._i.length)
    (hb : loc._b.length = loc._i.length)
    (hos : os.length = loc._i.length)
    (k : Nat) (hk : k < loc._i.length)
    (hij : loc._j.getD k 0 = loc._i.getD k 0)
    (hza : loc._a.getD k 0 = a) (hzb : loc._b.getD k 0 = a)
    (hz : os.getD k z3 = z3) :
    lex3 (os.getD k z3) = true ∧ (loc.select a a false).getD k false = true := by
  refine ⟨by rw [hz]; decide, ?_⟩
  rw [select_same_getD loc a os hoff hj ha hb hos k hk]
  rw [hza, hzb, hij, hz]
  simp [lex3, z3]

/-- Witness for C9 at candidate 2 of the concrete view. -/
theorem C9_zero_offset_pair_kept_witness :
    lex3 (([z3, ((1 : Int), (0 : Int), (0 : Int)), z3, (-1, 0, 0), (1, 0, 0)] :
        List I3).getD 2 z3) = true ∧
      (locWitness.select 1 1 false).getD 2 false = true :=
  C9_zero_offset_pair_kept locWitness 1
    [z3, (1, 0, 0), z3, (-1, 0, 0), (1, 0, 0)] rfl rfl rfl rfl rfl 2 (by decide)
    (by decide) (by decide) (by decide) (by decide)

/-! ## Claim C5 -/

/-- A mask mutation (`select` in place, or `unselect`) changes only
the mask: every raw candidate array and the offsets are preserved. -/
theorem applyOp_raw (loc : Local) (op : MaskOp) :
    (loc.applyOp op)._i = loc._i ∧ (loc.applyOp op)._j = loc._j ∧
      (loc.applyOp op)._a = loc._a ∧ (loc.applyOp op)._b = loc._b ∧
      (loc.applyOp op)._r = loc._r ∧ (loc.applyOp op).off = loc.off := by
  cases op <;> exact ⟨rfl, rfl, rfl, rfl, rfl, rfl⟩

/-- A sequence of mask mutations preserves the raw arrays and offsets. -/
theorem applyOps_raw (loc : Local) (ops : List MaskOp) :
    (loc.applyOps ops)._i = loc._i ∧ (loc.applyOps ops)._j = loc._j ∧
      (loc.applyOps ops)._a = loc._a ∧ (loc.applyOps ops)._b = loc._b ∧
      (loc.applyOps ops)._r = loc._r ∧ (loc.applyOps ops).off = loc.off := by
  induction ops generalizing loc with
  | nil => exact ⟨rfl, rfl, rfl, rfl, rfl, rfl⟩
  | cons op ops ih =>
    have h1 := applyOp_raw loc op
    have h2 := ih (loc.applyOp op)
    simp only [Local.applyOps, List.foldl_cons] at *
    exact ⟨h2.1.trans h1.1, (h2.2.1).trans h1.2.1, (h2.2.2.1).trans h1.2.2.1,
      (h2.2.2.2.1).trans h1.2.2.2.1, (h2.2.2.2.2.1).trans h1.2.2.2.2.1,
      (h2.2.2.2.2.2).trans h1.2.2.2.2.2⟩

/-- The cached tie-break flags survive mask mutations. -/
theorem applyOps_lexArr (loc : Local) (ops : List MaskOp) :
    (loc.applyOps ops).lexArr = loc.lexArr := by
  have h := applyOps_raw loc ops
  unfold Local.lexArr
  rw [h.2.2.2.2.2, h.1]

/-- Claim C5: two views are equal exactly when their raw candidate
arrays (owner indices, candidate indices, owner species, candidate
species, displacements, tie-break flags) are elementwise identical,
and any sequence of `select`/`unselect` calls applied to either view
leaves the equality verdict unchanged. -/
theorem C5_eq_ignores_mask (x y : Local) (ops : List MaskOp) :
    (Local.beq x y = true ↔
      (x._i = y._i ∧ x._j = y._j ∧ x._a = y._a ∧ x._b = y._b ∧ x._r = y._r ∧
        x.lexArr = y.lexArr)) ∧
    Local.beq (x.applyOps ops) y = Local.beq x y ∧
    Local.beq x (y.applyOps ops) = Local.beq x y := by
  have hx := applyOps_raw x ops
  have hy := applyOps_raw y ops
  have hlx := applyOps_lexArr x ops
  have hly := applyOps_lexArr y ops
  refine ⟨?_, ?_, ?_⟩
  · simp [Local.beq, and_assoc]
  · unfold Local.beq
    rw [hx.1, hx.2.1, hx.2.2.1, hx.2.2.2.1, hx.2.2.2.2.1, hlx]
  · unfold Local.beq
    rw [hy.1, hy.2.1, hy.2.2.1, hy.2.2.2.1, hy.2.2.2.2.1, hly]

/-! ## Claim C2 -/

/-- `torch.unique` of a constant nonempty array is the singleton. -/
theorem sortedUnique_replicate (n : Nat) (x : Int) (h : 0 < n) :
    sortedUnique (List.replicate n x) = [x] := by
  induction n with
  | zero => omega
  | succ m ih =>
    rw [List.replicate_succ]
    show insSorted x (sortedUnique (List.replicate m x)) = [x]
    cases Nat.eq_zero_or_pos m with
    | inl h0 => subst h0; simp [sortedUnique, insSorted]
    | inr hm => rw [ih hm]; simp [insSorted]

/-- Claim C2 as stated is false on the code: `detach` copies the raw
(unmasked) candidate arrays, so with a proper selection mask installed
by `select(1, 1, bothways=False)` the detached neighbor-species array
differs from the view's mask-filtered species array. -/
theorem C2_counterexample :
    (Local.applyOp locTwoCand (MaskOp.sel 1 1 false))._m = [true, false] ∧
    ((Local.applyOp locTwoCand (MaskOp.sel 1 1 false)).detach false)._b ≠
      Local.b (Local.applyOp locTwoCand (MaskOp.sel 1 1 false)) := by
  decide

/-- Claim C2, amended: `detach(keep_ids=False)` copies the view's full
unmasked neighbor-species and displacement arrays, renumbers the index
arrays to the canonical local scheme (owner 0, neighbors 1..n), and
re-deriving a view from the detached single-environment sample
(`as_atoms` then `as_local`) reproduces the detached view exactly
under the view-equality rule.  When the mask is all-true these arrays
coincide with the masked ones claimed by the spec. -/
theorem C2_detach_unmasked_roundtrip (loc : Local)
    (hb : loc._b.length = loc._r.length) (hn : 0 < loc._r.length) :
    (loc.detach false)._b = loc._b ∧
    (loc.detach false)._r = loc._r ∧
    (loc.detach false)._i = List.replicate loc._r.length 0 ∧
    (loc.detach false)._j = (List.range loc._r.length).map (fun k => (k : Int) + 1) ∧
    Local.beq ((loc.detach false).as_atoms).as_local (loc.detach false) = true := by
  refine ⟨rfl, rfl, rfl, rfl, ?_⟩
  have hbn : 0 < loc._b.length := by omega
  have h1 : (loc.detach false).as_atoms =
      { numbers := loc.number :: loc._b, positions := q0 :: loc._r } := by
    simp [Local.detach, Local.initArr, Local.as_atoms, sortedUnique_replicate _ _ hbn]
  have h2 : ((loc.detach false).as_atoms).as_local = loc.detach false := by
    rw [h1]
    simp [AtomsM.as_local, Local.detach, Local.initArr, hb]
  rw [h2]
  exact beq_refl_local _

/-- Witness for the amended C2 on the concrete two-candidate view. -/
theorem C2_detach_unmasked_roundtrip_witness :
    (locTwoCand.detach false)._b = locTwoCand._b ∧
    (locTwoCand.detach false)._r = locTwoCand._r ∧
    (locTwoCand.detach false)._i = List.replicate locTwoCand._r.length 0 ∧
    (locTwoCand.detach false)._j =
      (List.range locTwoCand._r.length).map (fun k => (k : Int) + 1) ∧
    Local.beq ((locTwoCand.detach false).as_atoms).as_local (locTwoCand.detach false) =
      true :=
  C2_detach_unmasked_roundtrip locTwoCand (by decide) (by decide)

/-! ## Claim C6 -/

/-- A rational is `np.allclose`-close to itself. -/
theorem close1_self (a : ℚ) : close1 a a = true := by
  simp only [close1, decide_eq_true_iff, sub_self, abs_zero, atolQ, rtolQ]
  positivity

/-- A 3-vector is close to itself. -/
theorem close3_self (v : Q3) : close3 v v = true := by
  simp [close3, close1_self]

/-- `np.allclose` is reflexive. -/
theorem allclose_self (xs : List Q3) : allclose xs xs = true := by
  induction xs with
  | nil => rfl
  | cons x xs ih =>
    simp only [allclose, List.zipWith_cons_cons, List.all_cons, close3_self,
      Bool.true_and, decide_eq_true_iff] at ih ⊢
    simpa using ih

/-- If some pair of entries fails the componentwise tolerance test,
`np.allclose` is false. -/
theorem allclose_false_of_far (xs ys : List Q3) (k : Nat)
    (h1 : k < xs.length) (h2 : k < ys.length)
    (h : close3 (xs.getD k q0) (ys.getD k q0) = false) :
    allclose xs ys = false := by
  rcases hcl : allclose xs ys with _ | _
  · rfl
  · exfalso
    simp only [allclose, Bool.and_eq_true, decide_eq_true_iff, List.all_eq_true] at hcl
    have hkz : k < (List.zipWith close3 xs ys).length := by
      simp only [List.length_zipWith]; omega
    have hmem : (List.zipWith close3 xs ys)[k] ∈ List.zipWith close3 xs ys :=
      List.getElem_mem hkz
    have htrue := hcl.2 _ hmem
    rw [List.getElem_zipWith] at htrue
    rw [List.getD_eq_getElem xs q0 h1, List.getD_eq_getElem ys q0 h2] at h
    rw [htrue] at h
    simp at h

/-- The detector reports no geometry change against a snapshot of the
current state. -/
theorem changedAtoms_self (s : AtomsState) (ds : List Desc) :
    changedAtoms (snapOf s ds) s = false := by
  simp [changedAtoms, changedNumbers, changedNatoms, changedAtomicNumbers,
    changedPositions, changedCell, changedPbc, snapOf, allclose_self]

/-- The count/species part of the detector reports no change against a
snapshot of the current state. -/
theorem changedNumbers_self (s : AtomsState) (ds : List Desc) :
    changedNumbers (snapOf s ds) s = false := by
  simp [changedNumbers, changedNatoms, changedAtomicNumbers, snapOf]

/-- Claim C6: immediately after a snapshot with no mutation the
detector reports `any_geometry == False`; `any_geometry` is true
exactly when the atom count, species, positions (beyond tolerance),
cell (beyond tolerance) or boundary flags changed relative to the
snapshot; and each single-component change (species array, one
position row beyond tolerance, one cell row beyond tolerance, or the
boundary flags) makes it true. -/
theorem C6_change_detection (s live : AtomsState) (ds : List Desc) :
    changedAtoms (snapOf s ds) s = false ∧
    (changedAtoms (snapOf s ds) live = true ↔
      (live.numbers.length ≠ s.numbers.length ∨ live.numbers ≠ s.numbers ∨
        allclose live.positions s.positions = false ∨
        allclose live.cell s.cell = false ∨ live.pbc ≠ s.pbc)) ∧
    (live.numbers ≠ s.numbers → changedAtoms (snapOf s ds) live = true) ∧
    (∀ k : Nat, k < live.positions.length → k < s.positions.length →
      close3 (live.positions.getD k q0) (s.positions.getD k q0) = false →
      changedAtoms (snapOf s ds) live = true) ∧
    (∀ k : Nat, k < live.cell.length → k < s.cell.length →
      close3 (live.cell.getD k q0) (s.cell.getD k q0) = false →
      changedAtoms (snapOf s ds) live = true) ∧
    (live.pbc ≠ s.pbc → changedAtoms (snapOf s ds) live = true) := by
  have hiff : changedAtoms (snapOf s ds) live = true ↔
      (live.numbers.length ≠ s.numbers.length ∨ live.numbers ≠ s.numbers ∨
        allclose live.positions s.positions = false ∨
        allclose live.cell s.cell = false ∨ live.pbc ≠ s.pbc) := by
    simp only [changedAtoms, changedNumbers, changedNatoms, changedAtomicNumbers,
      changedPositions, changedCell, changedPbc, snapOf, Bool.or_eq_true,
      decide_eq_true_iff, Bool.not_eq_true']
    tauto
  refine ⟨changedAtoms_self s ds, hiff, ?_, ?_, ?_, ?_⟩
  · intro h
    exact hiff.mpr (Or.inr (Or.inl h))
  · intro k hk1 hk2 hfar
    exact hiff.mpr (Or.inr (Or.inr (Or.inl
      (allclose_false_of_far _ _ k hk1 hk2 hfar))))
  · intro k hk1 hk2 hfar
    exact hiff.mpr (Or.inr (Or.inr (Or.inr (Or.inl
      (allclose_false_of_far _ _ k hk1 hk2 hfar)))))
  · intro h
    exact hiff.mpr (Or.inr (Or.inr (Or.inr (Or.inr h))))

/-- Witness for C6: no change right after a snapshot of `stateA`, and
a change after one species entry is modified. -/
theorem C6_change_detection_witness :
    changedAtoms (snapOf stateA []) stateA = false ∧
    changedAtoms (snapOf stateA []) stateB = true :=
  ⟨(C6_change_detection stateA stateA []).1,
    (C6_change_detection stateA stateB []).2.2.1 (by decide)⟩

/-! ## Claim C7 -/

/-- Claim C7: when the live state equals the last accepted snapshot,
`update` with no cutoff argument, no descriptors argument and
`forced=False` is a no-op for any injected rebuild actions: the
neighbor list, the held views and the stored snapshot (the entire
orchestrator state) are unchanged. -/
theorem C7_update_noop (f : TA → ℚ → TA) (g : TA → TA) (ta : TA)
    (h : ta.snap = snapOf ta.state ta.descriptors) :
    TA.update f g ta none none false = ta := by
  have h1 : changedNumbers ta.snap ta.state = false := by
    rw [h]; exact changedNumbers_self _ _
  have h2 : changedAtoms ta.snap ta.state = false := by
    rw [h]; exact changedAtoms_self _ _
  simp [TA.update, h1, h2]

/-- Witness for C7 on the concrete orchestrator state `taA`. -/
theorem C7_update_noop_witness :
    TA.update (fun t _ => t) (fun t => t) taA none none false = taA :=
  C7_update_noop (fun t _ => t) (fun t => t) taA rfl

/-! ## Claim C8 -/

/-- A list keeps its length under `dedup` exactly when it has no
duplicates. -/
theorem dedup_length_eq_iff {α : Type} [DecidableEq α] (l : List α) :
    l.dedup.length = l.length ↔ l.Nodup := by
  constructor
  · intro h
    rw [← List.dedup_eq_self]
    exact (List.dedup_sublist l).eq_of_length h
  · intro h
    rw [List.dedup_eq_self.2 h]

/-- Claim C8 as stated is false on the code: registering two
generators with the same name through `set_descriptors` raises no
error — the duplicate-name check lives only in `add_descriptors`. -/
theorem C8_counterexample :
    TA.set_descriptors taA [{ name := "D_0", state := 0 }, { name := "D_0", state := 1 }] =
      Except.ok { taA with
        descriptors := [{ name := "D_0", state := 0 }, { name := "D_0", state := 1 }] } ∧
    ¬ (([{ name := "D_0", state := 0 }, { name := "D_0", state := 1 }] : List Desc).map
        (fun d => d.name)).Nodup := by
  refine ⟨rfl, ?_⟩
  decide

/-- Claim C8, amended: registration through `add_descriptors` succeeds
exactly when all names in the resulting active set are distinct (and
raises a fatal error otherwise), while `set_descriptors` replaces the
active set without any name check and always succeeds. -/
theorem C8_registration_names_amended (ta : TA) (ds : List Desc) :
    ((∃ ta', TA.add_descriptors ta ds = Except.ok ta') ↔
      ((ta.descriptors ++ ds).map (fun d => d.name)).Nodup) ∧
    TA.set_descriptors ta ds = Except.ok { ta with descriptors := ds } := by
  refine ⟨?_, rfl⟩
  by_cases hc : (((ta.descriptors ++ ds).map (fun d => d.name)).dedup.length ≠
      (ta.descriptors ++ ds).length)
  · rw [TA.add_descriptors, if_pos hc]
    have hno : ¬ ((ta.descriptors ++ ds).map (fun d => d.name)).Nodup := by
      intro h
      exact hc (by rw [dedup_length_eq_iff _ |>.2 h, List.length_map])
    constructor
    · rintro ⟨ta', h'⟩
      exact Except.noConfusion h'
    · intro h
      exact absurd h hno
  · rw [TA.add_descriptors, if_neg hc]
    rw [not_not] at hc
    have hyes : ((ta.descriptors ++ ds).map (fun d => d.name)).Nodup := by
      rw [← dedup_length_eq_iff]
      rw [hc, List.length_map]
    constructor
    · intro _
      exact hyes
    · intro _
      exact ⟨_, rfl⟩

/-! ## Claim C10 -/

/-- Claim C10: calling the load balancer on a configuration that
already carries an explicit rank assignment is a no-op: the rank
assignment, every per-species counter row and the total counter
vector are unchanged. -/
theorem C10_call_fixed_noop (d : Distributer) (c : Conf) (rs : List Nat)
    (h : c.ranks = some rs) : d.call c = (d, c) := by
  simp [Distributer.call, h]

/-- Witness for C10 on a fresh two-worker balancer and a configuration
with a fixed assignment. -/
theorem C10_call_fixed_noop_witness :
    (Distributer.fresh 2).call confFixed = (Distributer.fresh 2, confFixed) :=
  C10_call_fixed_noop (Distributer.fresh 2) confFixed [1, 0] rfl

/-! ## Helper lemmas for the load balancer -/

/-- `incAt` preserves length. -/
theorem length_incAt (v : List Int) (r : Nat) : (incAt v r).length = v.length := by
  induction v generalizing r with
  | nil => rfl
  | cons x xs ih =>
    cases r with
    | zero => rfl
    | succ r => simp [incAt, ih]

/-- `incAt` at the incremented index. -/
theorem getD_incAt_self (v : List Int) (r : Nat) (hr : r < v.length) :
    (incAt v r).getD r 0 = v.getD r 0 + 1 := by
  induction v generalizing r with
  | nil => simp at hr
  | cons x xs ih =>
    cases r with
    | zero => rfl
    | succ r =>
      simp only [incAt, List.getD_cons_succ]
      exact ih r (by simpa using hr)

/-- `incAt` away from the incremented index. -/
theorem getD_incAt_ne (v : List Int) (r i : Nat) (hne : i ≠ r) :
    (incAt v r).getD i 0 = v.getD i 0 := by
  induction v generalizing r i with
  | nil => cases r <;> rfl
  | cons x xs ih =>
    cases r with
    | zero =>
      cases i with
      | zero => omega
      | succ i => rfl
    | succ r =>
      cases i with
      | zero => rfl
      | succ i =>
        simp only [incAt, List.getD_cons_succ]
        exact ih r i (by omega)

/-- `incAt` adds one to the sum. -/
theorem sum_incAt (v : List Int) (r : Nat) (hr : r < v.length) :
    (incAt v r).sum = v.sum + 1 := by
  induction v generalizing r with
  | nil => simp at hr
  | cons x xs ih =>
    cases r with
    | zero => simp [incAt]; ring
    | succ r =>
      simp only [incAt, List.sum_cons, ih r (by simpa using hr)]
      ring

/-- `KeyLe` is reflexive. -/
theorem keyLe_refl (k : Int × Int × Nat) : KeyLe k k := by
  unfold KeyLe; omega

/-- A strict key comparison implies the reflexive order. -/
theorem keyLe_of_lt {k1 k2 : Int × Int × Nat} (h : keyLt k1 k2 = true) : KeyLe k1 k2 := by
  simp only [keyLt, Bool.or_eq_true, Bool.and_eq_true, decide_eq_true_iff] at h
  unfold KeyLe
  omega

/-- A failed strict comparison implies the reverse reflexive order. -/
theorem keyLe_of_not_lt {k1 k2 : Int × Int × Nat} (h : keyLt k1 k2 = false) :
    KeyLe k2 k1 := by
  simp only [keyLt, Bool.or_eq_false_iff, Bool.and_eq_false_iff,
    decide_eq_false_iff_not] at h
  unfold KeyLe
  omega

/-- `KeyLe` is transitive. -/
theorem keyLe_trans {k1 k2 k3 : Int × Int × Nat} (h1 : KeyLe k1 k2) (h2 : KeyLe k2 k3) :
    KeyLe k1 k3 := by
  unfold KeyLe at *
  omega

/-- The fold underlying `sorted(keys)[0]` returns an element of the
seed-plus-list that is `KeyLe`-below the seed and every list element. -/
theorem minKeyAux_spec (ks : List (Int × Int × Nat)) (b : Int × Int × Nat) :
    (minKeyAux b ks = b ∨ minKeyAux b ks ∈ ks) ∧
      KeyLe (minKeyAux b ks) b ∧ ∀ x ∈ ks, KeyLe (minKeyAux b ks) x := by
  induction ks generalizing b with
  | nil => exact ⟨Or.inl rfl, keyLe_refl b, by simp⟩
  | cons k ks ih =>
    have hred : minKeyAux b (k :: ks) = minKeyAux (if keyLt k b then k else b) ks := rfl
    by_cases hkb : keyLt k b = true
    · rw [hred, if_pos hkb]
      obtain ⟨hm, hle, hall⟩ := ih k
      refine ⟨?_, keyLe_trans hle (keyLe_of_lt hkb), ?_⟩
      · rcases hm with h | h
        · right
          rw [h]
          exact List.mem_cons_self k ks
        · exact Or.inr (List.mem_cons_of_mem _ h)
      · intro x hx
        rcases List.mem_cons.mp hx with h | h
        · rw [h]
          exact hle
        · exact hall x h
    · have hkb' : keyLt k b = false := by
        simpa using hkb
      rw [hred, if_neg hkb]
      obtain ⟨hm, hle, hall⟩ := ih b
      have hbk : KeyLe b k := keyLe_of_not_lt hkb'
      refine ⟨?_, hle, ?_⟩
      · rcases hm with h | h
        · exact Or.inl h
        · exact Or.inr (List.mem_cons_of_mem _ h)
      · intro x hx
        rcases List.mem_cons.mp hx with h | h
        · rw [h]
          exact keyLe_trans hle hbk
        · exact hall x h

/-- `sorted(keys)[0]` is a member of a nonempty key list and is
`KeyLe`-below every member. -/
theorem pickKey_min (keys : List (Int × Int × Nat)) (hne : keys ≠ []) :
    pickKey keys ∈ keys ∧ ∀ x ∈ keys, KeyLe (pickKey keys) x := by
  cases keys with
  | nil => exact absurd rfl hne
  | cons k ks =>
    have h := minKeyAux_spec ks k
    refine ⟨?_, ?_⟩
    · rcases h.1 with h1 | h1
      · rw [show pickKey (k :: ks) = minKeyAux k ks from rfl, h1]; simp
      · exact List.mem_cons_of_mem _ h1
    · intro x hx
      rcases List.mem_cons.mp hx with h1 | h1
      · rw [h1]; exact h.2.1
      · exact h.2.2 x h1

/-- Shape of the zipped key list when all inputs have length `W`. -/
theorem keysOf_range (t l : List Int) (W : Nat) (ht : t.length = W)
    (hl : l.length = W) :
    (keysOf t l (List.range W)).length = W ∧
      ∀ k : Nat, (hk : k < W) →
        (keysOf t l (List.range W)).getD k (0, 0, 0) = (t.getD k 0, l.getD k 0, k) := by
  constructor
  · simp [keysOf, List.length_zipWith, List.length_zip, ht, hl]
  · intro k hk
    have hkz : k < ((t.zip l).zipWith
        (fun tl r => (tl.1, tl.2, r)) (List.range W)).length := by
      simp [List.length_zipWith, List.length_zip, ht, hl]
      omega
    have hkt : k < t.length := by omega
    have hkl : k < l.length := by omega
    have hkzip : k < (t.zip l).length := by
      simp [List.length_zip]; omega
    have hkr : k < (List.range W).length := by simpa using hk
    rw [show keysOf t l (List.range W) =
      (t.zip l).zipWith (fun tl r => (tl.1, tl.2, r)) (List.range W) from rfl]
    rw [List.getD_eq_getElem _ _ hkz, List.getElem_zipWith, List.getElem_zip,
      List.getElem_range]
    rw [List.getD_eq_getElem t 0 hkt, List.getD_eq_getElem l 0 hkl]

/-- The picked rank of `sorted(zip(total, loads[z], ranks))[0]` is in
range and its key is `KeyLe`-minimal among all ranks. -/
theorem pickRank_spec (t l : List Int) (W : Nat) (hW : 0 < W)
    (ht : t.length = W) (hl : l.length = W) :
    (pickKey (keysOf t l (List.range W))).2.2 < W ∧
      (t.getD ((pickKey (keysOf t l (List.range W))).2.2) 0,
        l.getD ((pickKey (keysOf t l (List.range W))).2.2) 0,
        (pickKey (keysOf t l (List.range W))).2.2) = pickKey (keysOf t l (List.range W)) ∧
      ∀ r' : Nat, r' < W →
        KeyLe (pickKey (keysOf t l (List.range W))) (t.getD r' 0, l.getD r' 0, r') := by
  obtain ⟨hlen, hget⟩ := keysOf_range t l W ht hl
  have hne : keysOf t l (List.range W) ≠ [] := by
    intro h
    rw [h] at hlen
    simp at hlen
    omega
  obtain ⟨hmem, hmin⟩ := pickKey_min _ hne
  obtain ⟨idx, hidx, hval⟩ := List.mem_iff_getElem.mp hmem
  have hidxW : idx < W := by omega
  have hkey : (keysOf t l (List.range W)).getD idx (0, 0, 0) =
      (t.getD idx 0, l.getD idx 0, idx) := hget idx hidxW
  rw [List.getD_eq_getElem _ _ hidx, hval] at hkey
  have hthird : (pickKey (keysOf t l (List.range W))).2.2 = idx := by
    rw [hkey]
  refine ⟨by rw [hthird]; exact hidxW, by rw [hthird, hkey], ?_⟩
  intro r' hr'
  have hmemr : (keysOf t l (List.range W)).getD r' (0, 0, 0) ∈
      keysOf t l (List.range W) := by
    have hr'' : r' < (keysOf t l (List.range W)).length := by omega
    rw [List.getD_eq_getElem _ _ hr'']
    exact List.getElem_mem hr''
  have := hmin _ hmemr
  rwa [hget r' hr'] at this

/-- A found row is a member of the dict. -/
theorem findLoad_mem (l : List (Int × List Int)) (z : Int) (v : List Int)
    (h : findLoad l z = some v) : (z, v) ∈ l := by
  induction l with
  | nil => simp [findLoad] at h
  | cons p rest ih =>
    by_cases hp : p.1 = z
    · rw [findLoad, if_pos hp] at h
      have hv : v = p.2 := by
        injection h with h'
        exact h'.symm
      subst hv
      subst hp
      exact List.mem_cons_self p rest
    · rw [findLoad, if_neg hp] at h
      exact List.mem_cons_of_mem _ (ih h)

/-- Lookup skips a left part that does not contain the key. -/
theorem findLoad_append_of_none (l1 l2 : List (Int × List Int)) (z : Int)
    (h : findLoad l1 z = none) : findLoad (l1 ++ l2) z = findLoad l2 z := by
  induction l1 with
  | nil => rfl
  | cons p rest ih =>
    by_cases hp : p.1 = z
    · rw [findLoad, if_pos hp] at h
      cases h
    · rw [findLoad, if_neg hp] at h
      rw [List.cons_append, findLoad, if_neg hp]
      exact ih h

/-- After `ensure`, the species row exists; it equals the old row when
present and the all-zero row otherwise.  `ensure` never touches
`total` or `world_size`. -/
theorem ensure_spec (d : Distributer) (z : Int) :
    (∃ lz, findLoad (d.ensure z).loads z = some lz ∧
      (findLoad d.loads z = some lz ∨
        (findLoad d.loads z = none ∧ lz = List.replicate d.world_size 0))) ∧
    (d.ensure z).total = d.total ∧ (d.ensure z).world_size = d.world_size := by
  unfold Distributer.ensure
  cases hf : findLoad d.loads z with
  | some v => exact ⟨⟨v, hf, Or.inl rfl⟩, rfl, rfl⟩
  | none =>
    refine ⟨⟨List.replicate d.world_size 0, ?_, Or.inr ⟨rfl, rfl⟩⟩, rfl, rfl⟩
    show findLoad (d.loads ++ [(z, List.replicate d.world_size 0)]) z = _
    rw [findLoad_append_of_none _ _ _ hf]
    simp [findLoad]

/-- `setLoad` increments exactly the looked-up row. -/
theorem findLoad_setLoad_self (l : List (Int × List Int)) (z : Int) (r : Nat)
    (v : List Int) (h : findLoad l z = some v) :
    findLoad (setLoad l z r) z = some (incAt v r) := by
  induction l with
  | nil => simp [findLoad] at h
  | cons p rest ih =>
    by_cases hp : p.1 = z
    · rw [findLoad, if_pos hp] at h
      cases h
      rw [setLoad, if_pos hp, findLoad, if_pos hp]
    · rw [findLoad, if_neg hp] at h
      rw [setLoad, if_neg hp, findLoad, if_neg hp]
      exact ih h

/-- Row lengths survive `setLoad`. -/
theorem setLoad_row_length (l : List (Int × List Int)) (z : Int) (r : Nat) (W : Nat)
    (h : ∀ p ∈ l, p.2.length = W) : ∀ p ∈ setLoad l z r, p.2.length = W := by
  induction l with
  | nil => simp [setLoad]
  | cons q rest ih =>
    intro p hp
    by_cases hq : q.1 = z
    · rw [setLoad, if_pos hq] at hp
      rcases List.mem_cons.mp hp with h1 | h1
      · rw [h1]
        simp only [length_incAt]
        exact h q (List.mem_cons_self _ _)
      · exact h p (List.mem_cons_of_mem _ h1)
    · rw [setLoad, if_neg hq] at hp
      rcases List.mem_cons.mp hp with h1 | h1
      · rw [h1]
        exact h q (List.mem_cons_self _ _)
      · exact ih (fun p hp => h p (List.mem_cons_of_mem _ hp)) p h1

/-- Row lengths survive `ensure`. -/
theorem ensure_row_length (d : Distributer) (z : Int)
    (h : ∀ p ∈ d.loads, p.2.length = d.world_size) :
    ∀ p ∈ (d.ensure z).loads, p.2.length = d.world_size := by
  unfold Distributer.ensure
  cases hf : findLoad d.loads z with
  | some v => exact h
  | none =>
    intro p hp
    rcases List.mem_append.mp hp with h1 | h1
    · exact h p h1
    · rcases List.mem_singleton.mp h1 with rfl
      simp

/-- The step specification of one `Distributer.__call__` loop
iteration on a well-formed state: the chosen rank is in range, its
sort key is lexicographically minimal among all ranks at the ensured
state, the total vector gets exactly that rank incremented, the
species row gets exactly that rank incremented, and the worker count
is untouched. -/
theorem assignAtom_spec (d : Distributer) (z : Int) (hd : DWF d) :
    (d.assignAtom z).2 < d.world_size ∧
    (∀ r' : Nat, r' < d.world_size →
      KeyLe ((d.ensure z).sortKey z (d.assignAtom z).2) ((d.ensure z).sortKey z r')) ∧
    (d.assignAtom z).1.total = incAt (d.ensure z).total (d.assignAtom z).2 ∧
    (d.assignAtom z).1.loadRow z = incAt ((d.ensure z).loadRow z) (d.assignAtom z).2 ∧
    (d.assignAtom z).1.world_size = d.world_size ∧
    DWF (d.assignAtom z).1 := by
  obtain ⟨⟨lz, hlz, hlzcase⟩, htot, hw⟩ := ensure_spec d z
  have hlzlen : lz.length = d.world_size := by
    rcases hlzcase with h | ⟨-, h⟩
    · exact hd.2.2 _ (findLoad_mem _ _ _ h)
    · rw [h]
      simp
  have hrow : (d.ensure z).loadRow z = lz := by
    rw [Distributer.loadRow, hlz]
    rfl
  have htlen : (d.ensure z).total.length = d.world_size := by
    rw [htot]
    exact hd.2.1
  have hpick := pickRank_spec (d.ensure z).total ((d.ensure z).loadRow z)
    d.world_size hd.1 htlen (by rw [hrow]; exact hlzlen)
  have hr : (d.assignAtom z).2 =
      (pickKey (keysOf (d.ensure z).total ((d.ensure z).loadRow z)
        (List.range (d.ensure z).world_size))).2.2 := rfl
  rw [hw] at hr
  have hrlt : (d.assignAtom z).2 < d.world_size := by
    rw [hr]
    exact hpick.1
  have hkeymin : ∀ r' : Nat, r' < d.world_size →
      KeyLe ((d.ensure z).sortKey z (d.assignAtom z).2) ((d.ensure z).sortKey z r') := by
    intro r' hr'
    have := hpick.2.2 r' hr'
    rw [Distributer.sortKey, Distributer.sortKey, hr, hpick.2.1]
    exact this
  have hpost1 : (d.assignAtom z).1.total =
      incAt (d.ensure z).total (d.assignAtom z).2 := rfl
  have hpostrow : (d.assignAtom z).1.loadRow z =
      incAt ((d.ensure z).loadRow z) (d.assignAtom z).2 := by
    rw [hrow]
    show (findLoad (setLoad (d.ensure z).loads z (d.assignAtom z).2) z).getD [] = _
    rw [findLoad_setLoad_self _ _ _ lz hlz]
    rfl
  have hdwf : DWF (d.assignAtom z).1 := by
    refine ⟨?_, ?_, ?_⟩
    · show 0 < (d.ensure z).world_size
      rw [hw]
      exact hd.1
    · show (incAt (d.ensure z).total (d.assignAtom z).2).length = (d.ensure z).world_size
      rw [length_incAt, htlen, hw]
    · show ∀ p ∈ setLoad (d.ensure z).loads z (d.assignAtom z).2,
        p.2.length = (d.ensure z).world_size
      rw [hw]
      exact setLoad_row_length _ _ _ _ (ensure_row_length d z hd.2.2)
  exact ⟨hrlt, hkeymin, hpost1, hpostrow, hw, hdwf⟩

/-- The rank list has one entry per atom. -/
theorem length_assignList (d : Distributer) (zs : List Int) :
    (d.assignList zs).2.length = zs.length := by
  induction zs generalizing d with
  | nil => rfl
  | cons z zs ih =>
    show ((d.assignAtom z).1.assignList zs).2.length + 1 = zs.length + 1
    rw [ih]

/-- Well-formedness survives the whole assignment loop. -/
theorem DWF_assignList (d : Distributer) (zs : List Int) (hd : DWF d) :
    DWF (d.assignList zs).1 := by
  induction zs generalizing d with
  | nil => exact hd
  | cons z zs ih =>
    exact ih (d.assignAtom z).1 (assignAtom_spec d z hd).2.2.2.2.2

/-- The worker count survives the whole assignment loop. -/
theorem world_assignList (d : Distributer) (zs : List Int) :
    (d.assignList zs).1.world_size = d.world_size := by
  induction zs generalizing d with
  | nil => rfl
  | cons z zs ih =>
    show ((d.assignAtom z).1.assignList zs).1.world_size = d.world_size
    rw [ih]
    exact (ensure_spec d z).2.2

/-- Unfolding the prefix state one step at a time. -/
theorem stepState_succ (d : Distributer) (zs : List Int) (k : Nat)
    (hk : k < zs.length) :
    d.stepState zs (k + 1) = ((d.stepState zs k).assignAtom (zs.getD k 0)).1 := by
  induction zs generalizing d k with
  | nil => simp at hk
  | cons z zs ih =>
    cases k with
    | zero =>
      show ((d.assignAtom z).1.assignList []).1 = ((d.assignList []).1.assignAtom _).1
      rfl
    | succ k =>
      have hk' : k < zs.length := by simpa using hk
      show ((d.assignAtom z).1.assignList (zs.take (k + 1))).1 =
        (((d.assignAtom z).1.assignList (zs.take k)).1.assignAtom ((z :: zs).getD (k + 1) 0)).1
      have := ih (d.assignAtom z).1 k hk'
      rw [show ((z :: zs).getD (k + 1) 0) = zs.getD k 0 from rfl]
      exact this

/-- The `k`-th produced rank is the rank picked at the `k`-th prefix
state. -/
theorem assignList_rank_getD (d : Distributer) (zs : List Int) (k : Nat)
    (hk : k < zs.length) :
    (d.assignList zs).2.getD k 0 =
      ((d.stepState zs k).assignAtom (zs.getD k 0)).2 := by
  induction zs generalizing d k with
  | nil => simp at hk
  | cons z zs ih =>
    cases k with
    | zero =>
      show (d.assignAtom z).2 = ((d.assignList []).1.assignAtom z).2
      rfl
    | succ k =>
      have hk' : k < zs.length := by simpa using hk
      show ((d.assignAtom z).1.assignList zs).2.getD k 0 =
        (((d.assignAtom z).1.assignList (zs.take k)).1.assignAtom (zs.getD k 0)).2
      exact ih (d.assignAtom z).1 k hk'

/-- Well-formedness holds at every prefix state. -/
theorem DWF_stepState (d : Distributer) (zs : List Int) (k : Nat) (hd : DWF d) :
    DWF (d.stepState zs k) :=
  DWF_assignList d (zs.take k) hd

/-- The worker count at every prefix state. -/
theorem world_stepState (d : Distributer) (zs : List Int) (k : Nat) :
    (d.stepState zs k).world_size = d.world_size :=
  world_assignList d (zs.take k)

/-! ## Claim C3 -/

/-- Claim C3: on a configuration with no explicit rank assignment,
`assign` installs one rank per atom; the `k`-th atom receives the rank
whose sort key `(total count, species count for that atom, rank id)`
is lexicographically minimal over all ranks at the state reached after
the first `k` atoms of the same call, and both the species row and the
total vector are incremented at exactly that rank before atom `k + 1`
is processed. -/
theorem C3_assign_greedy (d : Distributer) (c : Conf) (hd : DWF d)
    (hc : c.ranks = none) :
    (d.call c).2.ranks = some (d.assignList c.numbers).2 ∧
    (d.assignList c.numbers).2.length = c.numbers.length ∧
    ∀ k : Nat, k < c.numbers.length →
      (d.assignList c.numbers).2.getD k 0 < d.world_size ∧
      (∀ r' : Nat, r' < d.world_size →
        KeyLe
          (((d.stepState c.numbers k).ensure (c.numbers.getD k 0)).sortKey
            (c.numbers.getD k 0) ((d.assignList c.numbers).2.getD k 0))
          (((d.stepState c.numbers k).ensure (c.numbers.getD k 0)).sortKey
            (c.numbers.getD k 0) r')) ∧
      (d.stepState c.numbers (k + 1)).total =
        incAt (((d.stepState c.numbers k).ensure (c.numbers.getD k 0)).total)
          ((d.assignList c.numbers).2.getD k 0) ∧
      (d.stepState c.numbers (k + 1)).loadRow (c.numbers.getD k 0) =
        incAt ((((d.stepState c.numbers k).ensure (c.numbers.getD k 0)).loadRow
            (c.numbers.getD k 0)))
          ((d.assignList c.numbers).2.getD k 0) := by
  refine ⟨by simp [Distributer.call, hc], length_assignList d c.numbers, ?_⟩
  intro k hk
  have hwf : DWF (d.stepState c.numbers k) := DWF_stepState d c.numbers k hd
  have hW : (d.stepState c.numbers k).world_size = d.world_size :=
    world_stepState d c.numbers k
  have hspec := assignAtom_spec (d.stepState c.numbers k) (c.numbers.getD k 0) hwf
  have hrank := assignList_rank_getD d c.numbers k hk
  have hss := stepState_succ d c.numbers k hk
  rw [hW] at hspec
  refine ⟨?_, ?_, ?_, ?_⟩
  · rw [hrank]
    exact hspec.1
  · intro r' hr'
    rw [hrank]
    exact hspec.2.1 r' hr'
  · rw [hss, hrank]
    exact hspec.2.2.1
  · rw [hss, hrank]
    exact hspec.2.2.2.1

/-- Witness for C3: the installed rank list on a fresh two-worker
balancer and a three-atom single-species configuration. -/
theorem C3_assign_greedy_witness :
    ((Distributer.fresh 2).call confFree).2.ranks =
      some ((Distributer.fresh 2).assignList confFree.numbers).2 :=
  (C3_assign_greedy (Distributer.fresh 2) confFree (by decide) rfl).1

/-! ## Helper lemmas for the single-species balance invariant -/

/-- The first component of a `KeyLe`-smaller key is no larger. -/
theorem keyLe_fst {k1 k2 : Int × Int × Nat} (h : KeyLe k1 k2) : k1.1 ≤ k2.1 := by
  unfold KeyLe at h
  omega

/-- Incrementing a minimal entry keeps the spread at most one. -/
theorem spread01_incAt (v : List Int) (r : Nat) (hr : r < v.length)
    (hmin : ∀ idx : Nat, idx < v.length → v.getD r 0 ≤ v.getD idx 0)
    (hs : spread01 v) : spread01 (incAt v r) := by
  intro a b ha hb
  rw [length_incAt] at ha hb
  by_cases har : a = r <;> by_cases hbr : b = r
  · rw [har, hbr]
    omega
  · rw [har, getD_incAt_self v r hr, getD_incAt_ne v r b hbr]
    have := hmin b hb
    omega
  · rw [hbr, getD_incAt_ne v r a har, getD_incAt_self v r hr]
    have := hs a r ha hr
    omega
  · rw [getD_incAt_ne v r a har, getD_incAt_ne v r b hbr]
    exact hs a b ha hb

/-- Sum of an all-zero vector. -/
theorem sum_replicate_zero (W : Nat) : (List.replicate W (0 : Int)).sum = 0 := by
  induction W with
  | zero => rfl
  | succ m ih =>
    rw [List.replicate_succ, List.sum_cons, ih]
    ring

/-- Entries of an all-zero vector. -/
theorem getD_replicate_zero (W k : Nat) :
    (List.replicate W (0 : Int)).getD k 0 = 0 := by
  induction W generalizing k with
  | zero => cases k <;> rfl
  | succ m ih =>
    cases k with
    | zero => rfl
    | succ k =>
      rw [List.replicate_succ, List.getD_cons_succ]
      exact ih k

/-- A fresh balancer satisfies the single-species invariant at zero. -/
theorem SInv_fresh (W : Nat) (z : Int) : SInv W z 0 (Distributer.fresh W) := by
  refine ⟨rfl, by show (List.replicate W (0 : Int)).length = W; simp,
    Or.inl ⟨rfl, rfl⟩, sum_replicate_zero W, ?_⟩
  intro a b ha hb
  show (List.replicate W (0 : Int)).getD a 0 ≤ (List.replicate W (0 : Int)).getD b 0 + 1
  rw [getD_replicate_zero, getD_replicate_zero]
  omega

/-- Under the single-species invariant, `ensure` yields exactly the
one-row dict `z ↦ total` without touching the totals. -/
theorem SInv_ensure (W : Nat) (z : Int) (n : Int) (d : Distributer)
    (h : SInv W z n d) :
    (d.ensure z).loads = [(z, d.total)] ∧ (d.ensure z).total = d.total ∧
      (d.ensure z).loadRow z = d.total := by
  obtain ⟨hw, hlen, hcase, -, -⟩ := h
  have hloads : (d.ensure z).loads = [(z, d.total)] ∧ (d.ensure z).total = d.total := by
    rcases hcase with ⟨he, ht⟩ | he
    · have hf : findLoad d.loads z = none := by
        rw [he]
        rfl
      have hens : d.ensure z =
          { d with loads := d.loads ++ [(z, List.replicate d.world_size 0)] } := by
        unfold Distributer.ensure
        rw [hf]
      rw [hens]
      refine ⟨?_, rfl⟩
      show d.loads ++ [(z, List.replicate d.world_size 0)] = [(z, d.total)]
      rw [he, ht, hw]
      rfl
    · have hf : findLoad d.loads z = some d.total := by
        rw [he]
        simp [findLoad]
      have hens : d.ensure z = d := by
        unfold Distributer.ensure
        rw [hf]
      rw [hens]
      exact ⟨he, rfl⟩
  refine ⟨hloads.1, hloads.2, ?_⟩
  rw [Distributer.loadRow, hloads.1]
  simp [findLoad]

/-- One single-species assignment step preserves the invariant and
adds one to the assigned count. -/
theorem SInv_assignAtom (W : Nat) (z : Int) (n : Int) (d : Distributer)
    (hW : 0 < W) (h : SInv W z n d) : SInv W z (n + 1) (d.assignAtom z).1 := by
  obtain ⟨hw, hlen, hcase, hsum, hspread⟩ := h
  have hdwf : DWF d := by
    refine ⟨hw ▸ hW, by rw [hlen, hw], ?_⟩
    rcases hcase with ⟨he, -⟩ | he
    · rw [he]
      simp
    · rw [he]
      intro p hp
      rcases List.mem_singleton.mp hp with rfl
      rw [hlen, hw]
  obtain ⟨hel, het, herow⟩ := SInv_ensure W z n d ⟨hw, hlen, hcase, hsum, hspread⟩
  have hspec := assignAtom_spec d z hdwf
  have hrW : (d.assignAtom z).2 < W := hw ▸ hspec.1
  have hrlen : (d.assignAtom z).2 < d.total.length := by omega
  have hminTotal : ∀ idx : Nat, idx < d.total.length →
      d.total.getD (d.assignAtom z).2 0 ≤ d.total.getD idx 0 := by
    intro idx hidx
    have hidxW : idx < d.world_size := by omega
    have hkey := hspec.2.1 idx hidxW
    rw [Distributer.sortKey, Distributer.sortKey, het, herow] at hkey
    exact keyLe_fst hkey
  have hposttotal : (d.assignAtom z).1.total = incAt d.total (d.assignAtom z).2 := by
    rw [hspec.2.2.1, het]
  have hpostloads : (d.assignAtom z).1.loads =
      [(z, incAt d.total (d.assignAtom z).2)] := by
    show setLoad (d.ensure z).loads z (d.assignAtom z).2 = _
    rw [hel]
    simp [setLoad]
  refine ⟨?_, ?_, Or.inr ?_, ?_, ?_⟩
  · rw [hspec.2.2.2.2.1, hw]
  · rw [hposttotal, length_incAt, hlen]
  · rw [hpostloads, hposttotal]
  · rw [hposttotal, sum_incAt _ _ hrlen, hsum]
  · rw [hposttotal]
    exact spread01_incAt _ _ hrlen hminTotal hspread

/-- The invariant after a whole single-species assignment loop. -/
theorem SInv_assignList (W : Nat) (z : Int) (hW : 0 < W) (zs : List Int) :
    ∀ (d : Distributer) (n : Int), SInv W z n d → (∀ x ∈ zs, x = z) →
      SInv W z (n + zs.length) (d.assignList zs).1 := by
  induction zs with
  | nil =>
    intro d n h _
    simpa using h
  | cons x zs ih =>
    intro d n h hz
    have hx : x = z := hz x (List.mem_cons_self _ _)
    subst hx
    have h1 := SInv_assignAtom W x n d hW h
    have h2 := ih (d.assignAtom x).1 (n + 1) h1
      (fun y hy => hz y (List.mem_cons_of_mem _ hy))
    have harith : n + (((x :: zs).length : Nat) : Int) = (n + 1) + (zs.length : Int) := by
      push_cast [List.length_cons]
      ring
    show SInv W x (n + ((x :: zs).length : Int)) ((d.assignAtom x).1.assignList zs).1
    rw [harith]
    exact h2

/-- The invariant after a stream of single-species `assign` calls. -/
theorem SInv_callSeq (W : Nat) (z : Int) (hW : 0 < W) (cs : List Conf) :
    ∀ (d : Distributer) (n : Int), SInv W z n d →
      (∀ c ∈ cs, c.ranks = none ∧ ∀ x ∈ c.numbers, x = z) →
      SInv W z (n + (cs.map (fun c => (c.numbers.length : Int))).sum) (d.callSeq cs) := by
  induction cs with
  | nil =>
    intro d n h _
    simpa using h
  | cons c cs ih =>
    intro d n h hcs
    obtain ⟨hr, hz⟩ := hcs c (List.mem_cons_self _ _)
    have hcall : (d.call c).1 = (d.assignList c.numbers).1 := by
      simp [Distributer.call, hr]
    have h1 := SInv_assignList W z hW c.numbers d n h hz
    have h2 := ih (d.assignList c.numbers).1 (n + c.numbers.length) h1
      (fun c' hc' => hcs c' (List.mem_cons_of_mem _ hc'))
    have harith : n + (((c :: cs).map (fun c => (c.numbers.length : Int))).sum) =
        (n + c.numbers.length) + (cs.map (fun c => (c.numbers.length : Int))).sum := by
      rw [List.map_cons, List.sum_cons]
      ring
    show SInv W z _ ((d.call c).1.callSeq cs)
    rw [hcall, harith]
    exact h2

/-! ## Claim C4 -/

/-- Claim C4: for any stream of `assign` calls on rank-free
configurations of one species `z`, with `W` workers and counters
starting at zero, at every point of the sequence (every prefix
`cs.take k`) the per-rank totals sum to the number of atoms assigned
so far and any two per-rank counts differ by at most one (so the
maximum minus the minimum never exceeds 1). -/
theorem C4_single_species_balance (W : Nat) (z : Int) (cs : List Conf) (hW : 0 < W)
    (hcs : ∀ c ∈ cs, c.ranks = none ∧ ∀ x ∈ c.numbers, x = z) (k : Nat) :
    ((Distributer.fresh W).callSeq (cs.take k)).total.sum =
      ((cs.take k).map (fun c => (c.numbers.length : Int))).sum ∧
    ∀ a ∈ ((Distributer.fresh W).callSeq (cs.take k)).total,
      ∀ b ∈ ((Distributer.fresh W).callSeq (cs.take k)).total, a ≤ b + 1 := by
  have hinv := SInv_callSeq W z hW (cs.take k) (Distributer.fresh W) 0 (SInv_fresh W z)
    (fun c hc => hcs c (List.take_subset k cs hc))
  obtain ⟨-, -, -, hsum, hspread⟩ := hinv
  constructor
  · rw [hsum]
    exact zero_add _
  · intro a ha b hb
    obtain ⟨ia, hia, hga⟩ := List.mem_iff_getElem.mp ha
    obtain ⟨ib, hib, hgb⟩ := List.mem_iff_getElem.mp hb
    have hs := hspread ia ib hia hib
    rw [List.getD_eq_getElem _ _ hia, List.getD_eq_getElem _ _ hib, hga, hgb] at hs
    exact hs

/-- Witness for C4: one call of three same-species atoms on two
workers. -/
theorem C4_single_species_balance_witness :
    ((Distributer.fresh 2).callSeq ([confFree].take 1)).total.sum =
      (([confFree].take 1).map (fun c => (c.numbers.length : Int))).sum :=
  (C4_single_species_balance 2 1 [confFree] (by decide) (by decide) 1).1
